import Mathlib

/-!
# CipherChat-CPP: the room / session engine of `src/main.cpp`

A shallow embedding of the server side of `src/main.cpp` (classes `SimpleRSA`,
`SimpleCipher`, `Message`, `User`, `ChatRoom`, `CipherChatServer`) and the properties of
it that the specification states.

Conventions of the embedding

* a `std::string` is the list of its byte values (`Str`); `lit "abc"` is a literal;
* a `User*` is an address (`UserPtr`); the `User` objects live in a memory
  `UserPtr → User`, so that a write to `user->connected` is seen through every copy of
  the pointer, as in the source;
* `send(sock, data)` appends the event `⟨sock, data⟩` to the list of events a function
  returns; the order of the list is the order of the calls;
* `std::chrono::system_clock::now()` is an argument `now` (seconds), and
  `std::put_time(std::localtime(&t), "%H:%M:%S")` is an argument `hms : Nat → Str`,
  because the result depends on the time zone of the machine;
* the lines written to `std::cout` are not part of the model.
-/

namespace CipherChat

/-! ## Data model -/

/-- A `std::string`, as the list of its byte values. -/
abbrev Str := List Nat

/-- The bytes of an ASCII string literal. -/
def lit (s : String) : Str := s.toList.map Char.toNat

/-- A `User*`. -/
abbrev UserPtr := Nat

/-- The `User` class (main.cpp 133-142); `publicKey` is never read or written by the
server and is left out. The constructor sets `connected` to `true`. -/
structure User where
  username : Str
  socket : Int
  connected : Bool
deriving DecidableEq, Repr

/-- The `Message` struct (main.cpp 125-130); the time stamp is in seconds. -/
structure Message where
  sender : Str
  content : Str
  timestamp : Nat
  encrypted : Bool
deriving DecidableEq, Repr

/-- The data members of `ChatRoom` (main.cpp 147-150); `roomMutex` guards every member
function and has no sequential content. -/
structure ChatRoom where
  roomName : Str
  users : List UserPtr
  messageHistory : List Message
deriving DecidableEq, Repr

/-- One call `send(sock, data.c_str(), data.length(), 0)`. -/
structure Send where
  sock : Int
  data : Str
deriving DecidableEq, Repr

/-- The memory holding the `User` objects. -/
abbrev Mem := UserPtr → User

/-! ## SimpleCipher -/

/-- The loop of `SimpleCipher::encrypt` (main.cpp 107-110) from index `i` on: byte `i`
becomes `((c ^ key[i % key.length()]) + 13) % 256`. Stored back into a `char`, the value
is the same byte whether `char` is signed or not. -/
def SimpleCipher.encryptFrom (key : Str) : Nat → Str → Str
  | _, [] => []
  | i, c :: cs =>
    (((c ^^^ key.getD (i % key.length) 0) + 13) % 256) :: SimpleCipher.encryptFrom key (i + 1) cs

/-- The function `SimpleCipher::encrypt` (main.cpp 105-112). -/
def SimpleCipher.encrypt (key : Str) (plaintext : Str) : Str :=
  SimpleCipher.encryptFrom key 0 plaintext

/-- The loop of `SimpleCipher::decrypt` (main.cpp 116-119) from index `i` on: byte `i`
becomes `((c - 13 + 256) % 256) ^ key[i % key.length()]`, the subtraction being done in
`int`. Stored back into a `char`, the value is the same byte whether `char` is signed or
not. -/
def SimpleCipher.decryptFrom (key : Str) : Nat → Str → Str
  | _, [] => []
  | i, c :: cs =>
    ((((c : Int) - 13 + 256) % 256).toNat ^^^ key.getD (i % key.length) 0) ::
      SimpleCipher.decryptFrom key (i + 1) cs

/-- The function `SimpleCipher::decrypt` (main.cpp 114-121). -/
def SimpleCipher.decrypt (key : Str) (ciphertext : Str) : Str :=
  SimpleCipher.decryptFrom key 0 ciphertext

/-! ## SimpleRSA

A `long long` is an integer; the operator `%` of C++ truncates towards zero and is
`Int.tmod`. With the modulus 3233 of `generateKeys` every product formed by `modPow` is
below `3233 * 3233` in absolute value, far from the range of `long long`. -/

/-- The data members `n`, `e`, `d` of `SimpleRSA` (main.cpp 40). -/
structure SimpleRSA where
  n : Int
  e : Int
  d : Int
deriving DecidableEq, Repr

/-- The loop of `SimpleRSA::modPow` (main.cpp 50-55) with the locals `result`, `base`,
`exp`; `exp >> 1` on a positive `exp` is the division by 2. The first argument bounds
the number of turns; `modPow` passes `exp` itself, and the loop takes fewer turns than
that, since `exp` is at least halved in each turn. -/
def SimpleRSA.modPowLoop (mod : Int) : Nat → Int → Int → Int → Int
  | 0, result, _, _ => result
  | turns + 1, result, base, exp =>
    if exp > 0 then
      SimpleRSA.modPowLoop mod turns
        (if exp.tmod 2 = 1 then (result * base).tmod mod else result)
        ((base * base).tmod mod) (exp / 2)
    else result

/-- The function `SimpleRSA::modPow` (main.cpp 47-57). -/
def SimpleRSA.modPow (base exp mod : Int) : Int :=
  SimpleRSA.modPowLoop mod exp.toNat 1 (base.tmod mod) exp

/-- The loop of `SimpleRSA::modInverse` (main.cpp 60-63) from `x` on, with `turns`
values of `x` left below `m`; after the last one the function returns 1. -/
def SimpleRSA.modInverseLoop (a m : Int) : Nat → Int → Int
  | 0, _ => 1
  | turns + 1, x =>
    if ((a.tmod m) * (x.tmod m)).tmod m = 1 then x
    else SimpleRSA.modInverseLoop a m turns (x + 1)

/-- The function `SimpleRSA::modInverse` (main.cpp 59-65): `x` runs from 1 to `m - 1`. -/
def SimpleRSA.modInverse (a m : Int) : Int :=
  SimpleRSA.modInverseLoop a m (m - 1).toNat 1

/-- The function `SimpleRSA::generateKeys` (main.cpp 68-75); the old values of the
members are overwritten. -/
def SimpleRSA.generateKeys (_rsa : SimpleRSA) : SimpleRSA :=
  { n := 61 * 53
    e := 17
    d := SimpleRSA.modInverse 17 ((61 - 1) * (53 - 1)) }

/-- The function `SimpleRSA::getPublicKey` (main.cpp 77). -/
def SimpleRSA.getPublicKey (rsa : SimpleRSA) : Int × Int := (rsa.n, rsa.e)

/-- The function `SimpleRSA::getPrivateKey` (main.cpp 78). -/
def SimpleRSA.getPrivateKey (rsa : SimpleRSA) : Int × Int := (rsa.n, rsa.d)

/-- The conversion `static_cast<long long>(c)` of a `char` holding the byte `c`: when
plain `char` is signed, the bytes from 128 on are the negative values. -/
def charToInt (charSigned : Bool) (c : Nat) : Int :=
  if charSigned = true ∧ 128 ≤ c then (c : Int) - 256 else (c : Int)

/-- The conversion `static_cast<char>(v)` of a `long long`, as the byte stored: `v`
modulo 256. -/
def intToChar (v : Int) : Nat := (v % 256).toNat

/-- The function `SimpleRSA::encrypt` (main.cpp 80-86); it reads no data member. -/
def SimpleRSA.encrypt (charSigned : Bool) (message : Str) (pub_n pub_e : Int) : List Int :=
  match message with
  | [] => []
  | c :: cs =>
    SimpleRSA.modPow (charToInt charSigned c) pub_e pub_n ::
      SimpleRSA.encrypt charSigned cs pub_n pub_e

/-- The function `SimpleRSA::decrypt` (main.cpp 88-94). -/
def SimpleRSA.decrypt (rsa : SimpleRSA) (encrypted : List Int) : Str :=
  match encrypted with
  | [] => []
  | c :: cs => intToChar (SimpleRSA.modPow c rsa.d rsa.n) :: SimpleRSA.decrypt rsa cs

/-! ## ChatRoom -/

/-- The erase-remove idiom `v.erase(std::remove(v.begin(), v.end(), x), v.end())`:
the elements different from `x` are kept, in their order. -/
def eraseRemove (x : UserPtr) : List UserPtr → List UserPtr
  | [] => []
  | y :: ys => if y = x then eraseRemove x ys else y :: eraseRemove x ys

/-- The function `ChatRoom::addUser` (main.cpp 155-159): `users.push_back(user)`. -/
def ChatRoom.addUser (r : ChatRoom) (user : UserPtr) : ChatRoom :=
  { r with users := r.users ++ [user] }

/-- The function `ChatRoom::removeUser` (main.cpp 161-165). -/
def ChatRoom.removeUser (r : ChatRoom) (user : UserPtr) : ChatRoom :=
  { r with users := eraseRemove user r.users }

/-- The function `ChatRoom::formatMessage` (main.cpp 187-192). -/
def ChatRoom.formatMessage (hms : Nat → Str) (msg : Message) : Str :=
  lit "[" ++ hms msg.timestamp ++ lit "] " ++ msg.sender ++ lit ": " ++ msg.content ++ lit "\n"

/-- The delivery loop of `ChatRoom::broadcastMessage` (main.cpp 171-176) over the
members still to visit. -/
def ChatRoom.deliver (hms : Nat → Str) (mem : Mem) (msg : Message) (sender : UserPtr) :
    List UserPtr → List Send
  | [] => []
  | user :: rest =>
    if user ≠ sender ∧ (mem user).connected = true then
      ⟨(mem user).socket, ChatRoom.formatMessage hms msg⟩ ::
        ChatRoom.deliver hms mem msg sender rest
    else ChatRoom.deliver hms mem msg sender rest

/-- The function `ChatRoom::broadcastMessage` (main.cpp 167-177): the message is pushed
on the history, then the members are visited in order. -/
def ChatRoom.broadcastMessage (hms : Nat → Str) (mem : Mem) (r : ChatRoom) (msg : Message)
    (sender : UserPtr) : ChatRoom × List Send :=
  ({ r with messageHistory := r.messageHistory ++ [msg] },
   ChatRoom.deliver hms mem msg sender r.users)

/-- The function `ChatRoom::getUsers` (main.cpp 179-182): a copy of the vector. -/
def ChatRoom.getUsers (r : ChatRoom) : List UserPtr := r.users

/-! ## CipherChatServer -/

/-- The server and the objects it points to: the data members `chatRooms`,
`connectedUsers` (a `std::map` from socket to `User*`, as an association list) and
`running` of `CipherChatServer` (main.cpp 198-202), the memory of the `User` objects,
and the addresses obtained from `new User` and not yet given to `delete`. -/
structure State where
  chatRooms : List ChatRoom
  connectedUsers : List (Int × UserPtr)
  running : Bool
  mem : Mem
  allocated : List UserPtr

/-- The constructor `CipherChatServer()` (main.cpp 222-226), in a memory `mem`. -/
def CipherChatServer.new (mem : Mem) : State :=
  { chatRooms := [⟨lit "General", [], []⟩, ⟨lit "Secure", [], []⟩]
    connectedUsers := []
    running := false
    mem := mem
    allocated := [] }

/-- The test `std::isspace` of the classic locale, which `operator>>` uses to delimit a
token: space, `\t`, `\n`, `\v`, `\f`, `\r`. -/
def isSpace (c : Nat) : Bool := c = 32 ∨ (9 ≤ c ∧ c ≤ 13)

/-- The extraction `iss >> cmd` (main.cpp 404): leading white space is skipped, the
token runs up to the next white space; the second component is what is left in the
stream. -/
def readToken (s : Str) : Str × Str :=
  ((s.dropWhile isSpace).takeWhile (fun c => !isSpace c),
   (s.dropWhile isSpace).dropWhile (fun c => !isSpace c))

/-- The call `std::getline(iss, encryptedMsg)` (main.cpp 420) on what is left in the
stream: the bytes before the first `\n`. -/
def getline (rest : Str) : Str := rest.takeWhile (fun c => c ≠ 10)

/-- Lines 421-423 of main.cpp: one leading space is dropped. -/
def dropLeadingSpace (s : Str) : Str :=
  match s with
  | [] => []
  | c :: cs => if c = 32 then cs else c :: cs

/-- The write `user->connected = b`. -/
def setConnected (mem : Mem) (user : UserPtr) (b : Bool) : Mem :=
  Function.update mem user { mem user with connected := b }

/-- The call `chatRooms[0]->broadcastMessage(msg, user)` (main.cpp 390 and 435). The
vector always holds the two rooms of the constructor; on an empty vector nothing is
done. -/
def broadcastRoom0 (hms : Nat → Str) (st : State) (msg : Message) (user : UserPtr) :
    State × List Send :=
  match st.chatRooms with
  | [] => (st, [])
  | r :: rs =>
    ({ st with chatRooms := (r.broadcastMessage hms st.mem msg user).1 :: rs },
     (r.broadcastMessage hms st.mem msg user).2)

/-- The loop of the `/users` branch (main.cpp 413-415) over the copy returned by
`getUsers`: one line `- name` for each entry. -/
def userLines (mem : Mem) : List UserPtr → Str
  | [] => []
  | u :: us => lit "- " ++ (mem u).username ++ lit "\n" ++ userLines mem us

/-- The function `CipherChatServer::handleCommand` (main.cpp 401-445). -/
def handleCommand (hms : Nat → Str) (st : State) (user : UserPtr) (command : Str)
    (now : Nat) : State × List Send :=
  if (readToken command).1 = lit "/quit" then
    ({ st with mem := setConnected st.mem user false },
     [⟨(st.mem user).socket, lit "Goodbye, " ++ (st.mem user).username ++ lit "!\n"⟩])
  else if (readToken command).1 = lit "/users" then
    match st.chatRooms with
    | [] => (st, [])
    | r :: _ =>
      (st, [⟨(st.mem user).socket, lit "Users in room:\n" ++ userLines st.mem r.getUsers⟩])
  else if (readToken command).1 = lit "/encrypt" then
    ((broadcastRoom0 hms st
        ⟨(st.mem user).username ++ lit " [ENCRYPTED]", lit "[ENCRYPTED MESSAGE]", now, true⟩
        user).1,
     (broadcastRoom0 hms st
        ⟨(st.mem user).username ++ lit " [ENCRYPTED]", lit "[ENCRYPTED MESSAGE]", now, true⟩
        user).2 ++
      [⟨(st.mem user).socket,
        lit "Encrypted message sent: " ++ dropLeadingSpace (getline (readToken command).2) ++
          lit "\n"⟩])
  else
    (st, [⟨(st.mem user).socket, lit "Unknown command: " ++ (readToken command).1 ++ lit "\n"⟩])

/-- The function `CipherChatServer::processMessage` (main.cpp 376-399); byte 47 is
the slash. -/
def processMessage (hms : Nat → Str) (st : State) (user : UserPtr) (messageContent : Str)
    (now : Nat) : State × List Send :=
  match messageContent with
  | [] => (st, [])
  | c :: _ =>
    if c = 47 then handleCommand hms st user messageContent now
    else
      ((broadcastRoom0 hms st ⟨(st.mem user).username, messageContent, now, false⟩ user).1,
       (broadcastRoom0 hms st ⟨(st.mem user).username, messageContent, now, false⟩ user).2 ++
        [⟨(st.mem user).socket, lit "[" ++ hms now ++ lit "] You: " ++ messageContent ++ lit "\n"⟩])

/-- The welcome text of `handleClient` (main.cpp 331-336). -/
def welcome (username : Str) : Str :=
  lit "Welcome to CipherChat, " ++ username ++ lit "!\n" ++
  lit "Available commands:\n" ++
  lit "/join <room> - Join a chat room\n" ++
  lit "/users - List users in current room\n" ++
  lit "/encrypt <message> - Send encrypted message\n" ++
  lit "/quit - Leave the chat\n\n"

/-- The assignment `connectedUsers[sock] = user` on the map. -/
def mapAssign (m : List (Int × UserPtr)) (sock : Int) (user : UserPtr) : List (Int × UserPtr) :=
  (sock, user) :: m.filter (fun e => e.1 ≠ sock)

/-- The call `connectedUsers.erase(sock)` on the map. -/
def mapErase (m : List (Int × UserPtr)) (sock : Int) : List (Int × UserPtr) :=
  m.filter (fun e => e.1 ≠ sock)

/-- The call `chatRooms[0]->addUser(user)` (main.cpp 328). -/
def addUserRoom0 (rooms : List ChatRoom) (user : UserPtr) : List ChatRoom :=
  match rooms with
  | [] => []
  | r :: rs => r.addUser user :: rs

/-- The first part of `CipherChatServer::handleClient` (main.cpp 317-337), after a
successful first `recv` of `username` on `clientSocket`: `user` is the address that
`new User` returns. -/
def handleClient_enter (st : State) (clientSocket : Int) (username : Str) (user : UserPtr) :
    State × List Send :=
  ({ st with
      mem := Function.update st.mem user ⟨username, clientSocket, true⟩
      allocated := user :: st.allocated
      connectedUsers := mapAssign st.connectedUsers clientSocket user
      chatRooms := addUserRoom0 st.chatRooms user },
   [⟨clientSocket, welcome username⟩])

/-- Lines 352-354 of main.cpp: a final `\n` is removed. -/
def popNewline (s : Str) : Str :=
  if s.getLast? = some 10 then s.dropLast else s

/-- One turn of the receive loop of `handleClient` (main.cpp 346-356) on the received
text `messageContent`. -/
def handleClient_line (hms : Nat → Str) (st : State) (user : UserPtr) (messageContent : Str)
    (now : Nat) : State × List Send :=
  if messageContent = [] then (st, [])
  else processMessage hms st user (popNewline messageContent) now

/-- The clean-up of `handleClient` (main.cpp 359-373): the flag is cleared, the user is
removed from every room and from the map, and the object is deleted. -/
def handleClient_cleanup (st : State) (user : UserPtr) : State :=
  { st with
      mem := setConnected st.mem user false
      chatRooms := st.chatRooms.map (fun room => room.removeUser user)
      connectedUsers := mapErase st.connectedUsers (st.mem user).socket
      allocated := st.allocated.filter (fun p => p ≠ user) }

/-- One step of the server. A connection gets from `accept` a descriptor that no
session still open holds and from `new` an address that is not in use; a line is
processed for a session whose loop condition `running && user->connected` holds. -/
inductive Step (hms : Nat → Str) : State → State → Prop
  | start (st : State) : Step hms st { st with running := true }
  | stop (st : State) : Step hms st { st with running := false }
  | connect (st : State) (sock : Int) (username : Str) (user : UserPtr)
      (hnew : user ∉ st.allocated)
      (hsock : ∀ q ∈ st.allocated, (st.mem q).socket ≠ sock) :
      Step hms st (handleClient_enter st sock username user).1
  | line (st : State) (user : UserPtr) (messageContent : Str) (now : Nat)
      (hlive : user ∈ st.allocated) (hrun : st.running = true)
      (hconn : (st.mem user).connected = true) :
      Step hms st (handleClient_line hms st user messageContent now).1
  | teardown (st : State) (user : UserPtr) (hlive : user ∈ st.allocated) :
      Step hms st (handleClient_cleanup st user)

/-- The states the server reaches from its construction. -/
inductive Reachable (hms : Nat → Str) : State → Prop
  | init (mem : Mem) : Reachable hms (CipherChatServer.new mem)
  | step {st st2 : State} : Reachable hms st → Step hms st st2 → Reachable hms st2

/-- A clock for the examples: `%H:%M:%S` of a machine whose local time is UTC. -/
def utcClock (t : Nat) : Str :=
  [48 + t / 3600 % 24 / 10, 48 + t / 3600 % 24 % 10, 58,
   48 + t / 60 % 60 / 10, 48 + t / 60 % 60 % 10, 58,
   48 + t % 60 / 10, 48 + t % 60 % 10]

/-! ## Predicates on states -/

/-- The part of the state that no processed line touches: the member lists, the
allocated addresses, the map, the flag `running`, and the socket and name of every
user object. -/
def SameSessions (st st2 : State) : Prop :=
  st2.chatRooms.map ChatRoom.users = st.chatRooms.map ChatRoom.users ∧
  st2.allocated = st.allocated ∧
  st2.connectedUsers = st.connectedUsers ∧
  st2.running = st.running ∧
  (∀ p, (st2.mem p).socket = (st.mem p).socket) ∧
  (∀ p, (st2.mem p).username = (st.mem p).username)

/-- In a reachable state: there are two rooms and the second has no member; the member
list of the first has no repetition and holds exactly the allocated sessions; two
allocated sessions have different sockets. -/
def Inv (st : State) : Prop :=
  ∃ gu : List UserPtr,
    st.chatRooms.map ChatRoom.users = [gu, []] ∧ gu.Nodup ∧
    (∀ p, p ∈ gu ↔ p ∈ st.allocated) ∧
    (∀ p ∈ st.allocated, ∀ q ∈ st.allocated,
      (st.mem p).socket = (st.mem q).socket → p = q)

/-! ## A concrete run: A and B connected -/

/-- The memory before any session exists. -/
def demoMem : Mem := fun _ => ⟨[], 0, false⟩

/-- The server after `start` and the connections of `A` (socket 4, object 1) and of
`B` (socket 5, object 2). -/
def demoState : State :=
  (handleClient_enter
    (handleClient_enter { CipherChatServer.new demoMem with running := true } 4 (lit "A") 1).1
    5 (lit "B") 2).1

/-- The state after `B` has sent `/quit` in `demoState`: the flag `connected` of `B` is
cleared and its clean-up has not run yet. -/
def quitState : State := (handleClient_line utcClock demoState 2 (lit "/quit\n") 0).1

/-! ## Lemmas on the room operations -/

theorem eraseRemove_eq_filter (x : UserPtr) (l : List UserPtr) :
    eraseRemove x l = l.filter (fun y => decide (y ≠ x)) := by
  induction l with
  | nil => rfl
  | cons y ys ih =>
    by_cases h : y = x
    · simp [eraseRemove, h, ih]
    · simp [eraseRemove, h, ih]

theorem deliver_eq_map_filter (hms : Nat → Str) (mem : Mem) (msg : Message) (sender : UserPtr)
    (l : List UserPtr) :
    ChatRoom.deliver hms mem msg sender l =
      (l.filter (fun u => decide (u ≠ sender ∧ (mem u).connected = true))).map
        (fun u => (⟨(mem u).socket, ChatRoom.formatMessage hms msg⟩ : Send)) := by
  induction l with
  | nil => rfl
  | cons u us ih =>
    by_cases h : u ≠ sender ∧ (mem u).connected = true
    · simp only [ChatRoom.deliver, if_pos h, ih, List.filter_cons, decide_eq_true h,
        if_true, List.map_cons]
    · simp only [ChatRoom.deliver, if_neg h, ih, List.filter_cons, decide_eq_false h]
      rfl

theorem userLines_eq_join (mem : Mem) (l : List UserPtr) :
    userLines mem l = (l.map (fun u => lit "- " ++ (mem u).username ++ lit "\n")).flatten := by
  induction l with
  | nil => rfl
  | cons u us ih => simp [userLines, ih]

/-! ## What a processed line leaves unchanged -/

theorem setConnected_socket (mem : Mem) (u : UserPtr) (b : Bool) (p : UserPtr) :
    ((setConnected mem u b) p).socket = (mem p).socket := by
  unfold setConnected
  by_cases h : p = u
  · subst h; simp
  · simp [Function.update_noteq h]

theorem setConnected_username (mem : Mem) (u : UserPtr) (b : Bool) (p : UserPtr) :
    ((setConnected mem u b) p).username = (mem p).username := by
  unfold setConnected
  by_cases h : p = u
  · subst h; simp
  · simp [Function.update_noteq h]

theorem SameSessions.refl (st : State) : SameSessions st st :=
  ⟨rfl, rfl, rfl, rfl, fun _ => rfl, fun _ => rfl⟩

theorem broadcastRoom0_same (hms : Nat → Str) (st : State) (msg : Message) (user : UserPtr) :
    SameSessions st (broadcastRoom0 hms st msg user).1 := by
  unfold broadcastRoom0
  cases h : st.chatRooms with
  | nil => simp only [SameSessions, h]; simp
  | cons r rs =>
    simp only [SameSessions, h]
    simp [ChatRoom.broadcastMessage]

theorem handleCommand_same (hms : Nat → Str) (st : State) (user : UserPtr) (command : Str)
    (now : Nat) : SameSessions st (handleCommand hms st user command now).1 := by
  unfold handleCommand
  split_ifs
  · exact ⟨rfl, rfl, rfl, rfl, setConnected_socket _ _ _, setConnected_username _ _ _⟩
  · cases st.chatRooms <;> exact SameSessions.refl st
  · exact broadcastRoom0_same hms st _ user
  · exact SameSessions.refl st

theorem processMessage_same (hms : Nat → Str) (st : State) (user : UserPtr) (c : Str)
    (now : Nat) : SameSessions st (processMessage hms st user c now).1 := by
  unfold processMessage
  cases c with
  | nil => exact SameSessions.refl st
  | cons b bs =>
    simp only
    split_ifs
    · exact handleCommand_same hms st user _ now
    · exact broadcastRoom0_same hms st _ user

theorem handleClient_line_same (hms : Nat → Str) (st : State) (user : UserPtr) (c : Str)
    (now : Nat) : SameSessions st (handleClient_line hms st user c now).1 := by
  unfold handleClient_line
  split_ifs
  · exact SameSessions.refl st
  · exact processMessage_same hms st user _ now

/-! ## The invariant of the reachable states -/

theorem Inv.of_same {st st2 : State} (h : Inv st) (hs : SameSessions st st2) : Inv st2 := by
  obtain ⟨gu, h1, h2, h3, h4⟩ := h
  obtain ⟨s1, s2, _, _, s5, _⟩ := hs
  refine ⟨gu, by rw [s1, h1], h2, by rw [s2]; exact h3, ?_⟩
  intro p hp q hq e
  rw [s2] at hp hq
  rw [s5, s5] at e
  exact h4 p hp q hq e

theorem Inv.init (mem : Mem) : Inv (CipherChatServer.new mem) :=
  ⟨[], rfl, List.nodup_nil, fun _ => Iff.rfl, fun _ hp => absurd hp (List.not_mem_nil _)⟩

theorem Inv.step {hms : Nat → Str} {st st2 : State} (h : Inv st) (hstep : Step hms st st2) :
    Inv st2 := by
  cases hstep with
  | start => exact h
  | stop => exact h
  | line user c now hlive hrun hconn => exact h.of_same (handleClient_line_same hms st user c now)
  | connect sock username user hnew hsock =>
    obtain ⟨gu, h1, h2, h3, h4⟩ := h
    refine ⟨gu ++ [user], ?_, ?_, ?_, ?_⟩
    · simp only [handleClient_enter]
      cases hc : st.chatRooms with
      | nil => rw [hc] at h1; simp at h1
      | cons g rs =>
        rw [hc] at h1
        simp only [List.map_cons, List.cons.injEq] at h1
        simp [addUserRoom0, ChatRoom.addUser, h1.1, h1.2]
    · rw [List.nodup_append]
      refine ⟨h2, List.nodup_singleton _, ?_⟩
      simp only [List.disjoint_singleton]
      exact fun hu => hnew ((h3 user).mp hu)
    · intro p
      simp only [handleClient_enter, List.mem_append, List.mem_cons, List.not_mem_nil,
        or_false, h3 p]
      exact ⟨fun hh => hh.symm, fun hh => hh.symm⟩
    · have hm : ∀ p ∈ st.allocated,
          (Function.update st.mem user (⟨username, sock, true⟩ : User)) p = st.mem p := by
        intro p hp
        exact Function.update_noteq (fun (e : p = user) => hnew (e ▸ hp)) _ _
      intro p hp q hq e
      simp only [handleClient_enter, List.mem_cons] at hp hq e
      rcases hp with rfl | hp <;> rcases hq with rfl | hq
      · rfl
      · rw [hm q hq, Function.update_same] at e
        exact absurd e.symm (hsock q hq)
      · rw [hm p hp, Function.update_same] at e
        exact absurd e (hsock p hp)
      · rw [hm p hp, hm q hq] at e
        exact h4 p hp q hq e
  | teardown user hlive =>
    obtain ⟨gu, h1, h2, h3, h4⟩ := h
    refine ⟨gu.filter (fun t => decide (t ≠ user)), ?_, h2.filter _, ?_, ?_⟩
    · simp only [handleClient_cleanup, List.map_map]
      have : (ChatRoom.users ∘ fun room => room.removeUser user) =
          (fun l => l.filter (fun t => decide (t ≠ user))) ∘ ChatRoom.users := by
        funext room
        exact eraseRemove_eq_filter user room.users
      rw [this, ← List.map_map, h1]
      rfl
    · intro p
      simp only [handleClient_cleanup, List.mem_filter, h3 p]
    · intro p hp q hq e
      simp only [handleClient_cleanup, List.mem_filter] at hp hq e
      rw [setConnected_socket, setConnected_socket] at e
      exact h4 p hp.1 q hq.1 e

theorem Reachable.inv {hms : Nat → Str} {st : State} (h : Reachable hms st) : Inv st := by
  induction h with
  | init mem => exact Inv.init mem
  | step _ hstep ih => exact ih.step hstep

/-- In a state with the invariant, a room that has a member is the first of the two
rooms, and the other room has no member. -/
theorem Inv.room_of_member {st : State} (h : Inv st) {r : ChatRoom} (hr : r ∈ st.chatRooms)
    {u : UserPtr} (hu : u ∈ r.users) :
    ∃ s : ChatRoom, st.chatRooms = [r, s] ∧ s.users = [] := by
  obtain ⟨gu, h1, -⟩ := h
  match hc : st.chatRooms, h1 with
  | [g, s], h1 =>
    simp only [List.map_cons, List.map_nil, List.cons.injEq, and_true] at h1
    rw [hc] at hr
    simp only [List.mem_cons, List.mem_singleton, List.not_mem_nil, or_false] at hr
    rcases hr with rfl | rfl
    · exact ⟨s, rfl, h1.2⟩
    · rw [h1.2] at hu
      exact absurd hu (List.not_mem_nil _)
  | [], h1 => simp [hc] at h1
  | [_], h1 => simp [hc] at h1
  | _ :: _ :: _ :: _, h1 => simp [hc] at h1

/-! ## The concrete run is reachable -/

theorem demoState_reachable (hms : Nat → Str) : Reachable hms demoState := by
  refine Reachable.step (Reachable.step (Reachable.step (Reachable.init demoMem)
    (Step.start _)) (Step.connect _ 4 (lit "A") 1 ?_ ?_)) (Step.connect _ 5 (lit "B") 2 ?_ ?_)
  · decide
  · intro q hq
    exact absurd hq (List.not_mem_nil _)
  · decide
  · decide

theorem quitState_reachable : Reachable utcClock quitState :=
  Reachable.step (demoState_reachable utcClock)
    (Step.line demoState 2 (lit "/quit\n") 0 (by decide) (by decide) (by decide))

/-! ## The room operations (C1, C2, C3) -/

/-- C1, counterexample: after `B` (session 2) has sent `/quit`, a state the server reaches,
session 2 is still in the member list of General and is not the excluded session 1, yet
`broadcastMessage` sends nothing at all, because the flag `connected` of session 2 is
cleared. -/
theorem broadcastMessage_skips_disconnected :
    quitState.chatRooms.head? = some ⟨lit "General", [1, 2], []⟩ ∧
    (2 : UserPtr) ∈ [1, 2] ∧ (2 : UserPtr) ≠ 1 ∧
    (ChatRoom.broadcastMessage utcClock quitState.mem ⟨lit "General", [1, 2], []⟩
      ⟨lit "A", lit "hi", 0, false⟩ 1).2 = [] := by
  decide

/-- C1, amended: `broadcastMessage(msg, sender)` sends the formatted copy of `msg`, in the
order of the member list, to the members other than `sender` whose flag `connected` is
set, once for each occurrence in the member list (so exactly once when the list has no
repetition) and to no one else; the history becomes the old history followed by one
copy of `msg`, and the member list and the name are unchanged. -/
theorem broadcastMessage_spec (hms : Nat → Str) (mem : Mem) (r : ChatRoom) (msg : Message)
    (sender : UserPtr) :
    (r.broadcastMessage hms mem msg sender).2 =
      (r.users.filter (fun u => decide (u ≠ sender ∧ (mem u).connected = true))).map
        (fun u => (⟨(mem u).socket, ChatRoom.formatMessage hms msg⟩ : Send)) ∧
    (∀ u, (r.users.filter (fun u => decide (u ≠ sender ∧ (mem u).connected = true))).count u =
      if u ≠ sender ∧ (mem u).connected = true then r.users.count u else 0) ∧
    (r.broadcastMessage hms mem msg sender).1.messageHistory = r.messageHistory ++ [msg] ∧
    (r.broadcastMessage hms mem msg sender).1.users = r.users ∧
    (r.broadcastMessage hms mem msg sender).1.roomName = r.roomName := by
  refine ⟨deliver_eq_map_filter hms mem msg sender r.users, ?_, rfl, rfl, rfl⟩
  intro u
  by_cases h : u ≠ sender ∧ (mem u).connected = true
  · rw [if_pos h]
    exact List.count_filter (p := fun u => decide (u ≠ sender ∧ (mem u).connected = true))
      (decide_eq_true h)
  · rw [if_neg h, List.count_eq_zero]
    intro hu
    exact h (of_decide_eq_true (List.mem_filter.mp hu).2)

/-- C2, counterexample: session 1 is already the only member of the room; `addUser`
inserts it a second time, so the member list changes and holds session 1 twice. -/
theorem addUser_duplicates :
    (1 : UserPtr) ∈ (⟨lit "General", [1], []⟩ : ChatRoom).users ∧
    (ChatRoom.addUser ⟨lit "General", [1], []⟩ 1).users = [1, 1] ∧
    (ChatRoom.addUser ⟨lit "General", [1], []⟩ 1).users ≠
      (⟨lit "General", [1], []⟩ : ChatRoom).users ∧
    ¬ (ChatRoom.addUser ⟨lit "General", [1], []⟩ 1).users.Nodup := by
  decide

/-- C2, amended: `addUser(s)` never fails and never skips the insertion: it appends `s` at
the end of the member list, so `s` occurs once more than before and every other session
as often as before; the member list is free of repetitions afterwards exactly when it
was before and `s` was not yet a member. History and name are unchanged. -/
theorem addUser_spec (r : ChatRoom) (s : UserPtr) :
    (r.addUser s).users = r.users ++ [s] ∧
    (∀ t, (r.addUser s).users.count t = r.users.count t + if t = s then 1 else 0) ∧
    ((r.addUser s).users.Nodup ↔ r.users.Nodup ∧ s ∉ r.users) ∧
    (r.addUser s).messageHistory = r.messageHistory ∧
    (r.addUser s).roomName = r.roomName := by
  refine ⟨rfl, ?_, ?_, rfl, rfl⟩
  · intro t
    by_cases h : t = s
    · simp [ChatRoom.addUser, List.count_append, h]
    · have h2 : ¬ s = t := fun e => h e.symm
      simp [ChatRoom.addUser, List.count_append, h, h2]
  · simp only [ChatRoom.addUser]
    rw [List.nodup_append]
    simp [List.disjoint_singleton]

/-- C3: after `removeUser(s)` the session `s` is not in the member list, the list is the
old one without the occurrences of `s` (the others keep their order), the room is
unchanged exactly when `s` was not a member, and a second `removeUser(s)` changes
nothing more. -/
theorem removeUser_spec (r : ChatRoom) (s : UserPtr) :
    s ∉ (r.removeUser s).users ∧
    (r.removeUser s).users = r.users.filter (fun t => decide (t ≠ s)) ∧
    List.Sublist (r.removeUser s).users r.users ∧
    (r.removeUser s = r ↔ s ∉ r.users) ∧
    (r.removeUser s).removeUser s = r.removeUser s ∧
    (r.removeUser s).messageHistory = r.messageHistory ∧
    (r.removeUser s).roomName = r.roomName := by
  have hf : (r.removeUser s).users = r.users.filter (fun t => decide (t ≠ s)) :=
    eraseRemove_eq_filter s r.users
  have hnot : s ∉ (r.removeUser s).users := by
    rw [hf]
    intro h
    exact of_decide_eq_true (List.mem_filter.mp h).2 rfl
  have hfix : ∀ q : ChatRoom, s ∉ q.users → q.removeUser s = q := by
    intro q hq
    have : eraseRemove s q.users = q.users := by
      rw [eraseRemove_eq_filter, List.filter_eq_self]
      intro a ha
      exact decide_eq_true (fun e => hq (e ▸ ha))
    simp only [ChatRoom.removeUser, this]
  refine ⟨hnot, hf, ?_, ⟨?_, hfix r⟩, hfix _ hnot, rfl, rfl⟩
  · rw [hf]
    exact List.filter_sublist r.users
  · intro h hs
    rw [h] at hnot
    exact hnot hs

/-! ## The command processor (C4 to C8) -/

/-- C4, the code evaluated: in the state where `A` and `B` are in General and Secure is
empty, `A` processes `/join secure` and then `hi`. The first line is answered with
`Unknown command: /join` and moves nobody (`A` and `B` stay in General, Secure stays
empty); the second is delivered to `B`, a member of General. -/
theorem join_secure_is_unknown_command :
    (processMessage utcClock demoState 1 (lit "/join secure") 0).2 =
      [⟨4, lit "Unknown command: /join\n"⟩] ∧
    (processMessage utcClock demoState 1 (lit "/join secure") 0).1.chatRooms.map
      (fun r => (r.roomName, r.users)) = [(lit "General", [1, 2]), (lit "Secure", [])] ∧
    (processMessage utcClock
      (processMessage utcClock demoState 1 (lit "/join secure") 0).1 1 (lit "hi") 0).2 =
      [⟨5, lit "[00:00:00] A: hi\n"⟩, ⟨4, lit "[00:00:00] You: hi\n"⟩] ∧
    (demoState.mem 2).socket = 5 := by
  decide

/-- C5, the code evaluated: `A` processes `/encrypt hi` next to `B`. The claim is that the
confirmation sent back carries the output of `SimpleCipher::encrypt`, not the plaintext.
In the code the transformed payload differs from `hi`, the room receives the redacted
message, the confirmation sent to `A` is `Encrypted message sent: hi` with the text as
typed, and no event that is sent carries the transformed payload: the value computed at
main.cpp 427 is never read, and line 438 concatenates the plaintext variable. -/
theorem encrypt_confirmation_is_plaintext :
    SimpleCipher.encrypt (lit "CipherChatKey123") (lit "hi") ≠ lit "hi" ∧
    (handleCommand utcClock demoState 1 (lit "/encrypt hi") 0).2 =
      [⟨5, lit "[00:00:00] A [ENCRYPTED]: [ENCRYPTED MESSAGE]\n"⟩,
       ⟨4, lit "Encrypted message sent: hi\n"⟩] ∧
    (∀ e ∈ (handleCommand utcClock demoState 1 (lit "/encrypt hi") 0).2,
      ¬ (SimpleCipher.encrypt (lit "CipherChatKey123") (lit "hi") <:+: e.data)) := by
  decide

theorem readToken_encrypt (t : Str) :
    readToken (lit "/encrypt " ++ t) = (lit "/encrypt", 32 :: t) := by
  have h : lit "/encrypt " = [47, 101, 110, 99, 114, 121, 112, 116, 32] := by decide
  have h2 : lit "/encrypt" = [47, 101, 110, 99, 114, 121, 112, 116] := by decide
  rw [h, h2]
  simp [readToken, List.dropWhile, List.takeWhile, isSpace]

/-- The `/encrypt` branch as it is written, for every text `t`: on the line `/encrypt `
followed by `t`, `handleCommand` broadcasts to the first room (General), the sender
excluded, the message with the fixed content `[ENCRYPTED MESSAGE]`, the sender name
followed by ` [ENCRYPTED]` and the flag `encrypted` set, and then sends the sender a
confirmation built from `t` as typed up to its first line feed, where the transformed
payload was to go. This records what the code does, not what it is meant to do. -/
theorem handleCommand_encrypt (hms : Nat → Str) (st : State) (user : UserPtr) (t : Str)
    (now : Nat) (r : ChatRoom) (rs : List ChatRoom) (hrooms : st.chatRooms = r :: rs) :
    handleCommand hms st user (lit "/encrypt " ++ t) now =
      ({ st with chatRooms :=
          { r with messageHistory := r.messageHistory ++
              [⟨(st.mem user).username ++ lit " [ENCRYPTED]", lit "[ENCRYPTED MESSAGE]",
                now, true⟩] } :: rs },
       (r.users.filter (fun u => decide (u ≠ user ∧ (st.mem u).connected = true))).map
          (fun u => (⟨(st.mem u).socket, ChatRoom.formatMessage hms
            ⟨(st.mem user).username ++ lit " [ENCRYPTED]", lit "[ENCRYPTED MESSAGE]",
              now, true⟩⟩ : Send)) ++
        [⟨(st.mem user).socket,
          lit "Encrypted message sent: " ++ t.takeWhile (fun c => decide (c ≠ 10)) ++
            lit "\n"⟩]) := by
  have hq : lit "/encrypt" ≠ lit "/quit" := by decide
  have hu : lit "/encrypt" ≠ lit "/users" := by decide
  unfold handleCommand
  rw [readToken_encrypt, if_neg hq, if_neg hu, if_pos rfl]
  simp only [broadcastRoom0, hrooms, ChatRoom.broadcastMessage, deliver_eq_map_filter]
  simp [getline, List.takeWhile, dropLeadingSpace]

/-- The `/encrypt` branch at a concrete input: `A` processes `/encrypt hi` next to `B`. -/
theorem handleCommand_encrypt_witness :
    (handleCommand utcClock demoState 1 (lit "/encrypt " ++ lit "hi") 0).2 =
      [⟨5, lit "[00:00:00] A [ENCRYPTED]: [ENCRYPTED MESSAGE]\n"⟩,
       ⟨4, lit "Encrypted message sent: hi\n"⟩] :=
  (congrArg Prod.snd (handleCommand_encrypt utcClock demoState 1 (lit "hi") 0
    ⟨lit "General", [1, 2], []⟩ [⟨lit "Secure", [], []⟩] (by decide))).trans (by decide)

/-- C6: in a reachable state, let `r` be the room of the sender `user` and `c` a non-empty
line that does not start with a slash (byte 47). Then `processMessage` sends, in this
order, the line `[HH:MM:SS] A: c` to every member of `r` other than the sender whose
flag `connected` is set, and then the echo `[HH:MM:SS] You: c` to the sender, and
nothing else. Each recipient of the room broadcast occurs once, and none of them has
the socket of the sender. -/
theorem processMessage_chat (hms : Nat → Str) (st : State) (hreach : Reachable hms st)
    (user : UserPtr) (r : ChatRoom) (hr : r ∈ st.chatRooms) (hmem : user ∈ r.users)
    (c : Str) (hne : c ≠ []) (hslash : c.head? ≠ some 47) (now : Nat) :
    (processMessage hms st user c now).2 =
      (r.users.filter (fun v => decide (v ≠ user ∧ (st.mem v).connected = true))).map
        (fun v => (⟨(st.mem v).socket,
          lit "[" ++ hms now ++ lit "] " ++ (st.mem user).username ++ lit ": " ++ c ++
            lit "\n"⟩ : Send)) ++
      [⟨(st.mem user).socket, lit "[" ++ hms now ++ lit "] You: " ++ c ++ lit "\n"⟩] ∧
    (r.users.filter (fun v => decide (v ≠ user ∧ (st.mem v).connected = true))).Nodup ∧
    (∀ v ∈ r.users.filter (fun v => decide (v ≠ user ∧ (st.mem v).connected = true)),
      (st.mem v).socket ≠ (st.mem user).socket) := by
  have hinv := hreach.inv
  obtain ⟨s, hrooms, -⟩ := hinv.room_of_member hr hmem
  obtain ⟨gu, h1, h2, h3, h4⟩ := hinv
  have hgu : gu = r.users := by
    rw [hrooms] at h1
    simp only [List.map_cons, List.map_nil, List.cons.injEq, and_true] at h1
    exact h1.1.symm
  subst hgu
  refine ⟨?_, h2.filter _, ?_⟩
  · cases c with
    | nil => exact absurd rfl hne
    | cons b bs =>
      have hb : b ≠ 47 := fun e => hslash (by rw [e]; rfl)
      simp only [processMessage, if_neg hb, broadcastRoom0, hrooms, ChatRoom.broadcastMessage,
        deliver_eq_map_filter, ChatRoom.formatMessage]
  · intro v hv e
    have hv2 := List.mem_filter.mp hv
    exact (of_decide_eq_true hv2.2).1
      (h4 v ((h3 v).mp hv2.1) user ((h3 user).mp hmem) e)

/-- C6 at a concrete input: `A` and `B` are in General and `A` sends `hello`. -/
theorem processMessage_chat_witness :
    (processMessage utcClock demoState 1 (lit "hello") 0).2 =
      [⟨5, lit "[00:00:00] A: hello\n"⟩, ⟨4, lit "[00:00:00] You: hello\n"⟩] :=
  (processMessage_chat utcClock demoState (demoState_reachable utcClock) 1
    ⟨lit "General", [1, 2], []⟩ (by decide) (by decide) (lit "hello") (by decide) (by decide)
    0).1.trans (by decide)

/-- C7: when the line starts with a slash and its first token `t` is none of `/quit`,
`/users`, `/join` and `/encrypt`, `handleCommand` (also when reached through
`processMessage`) sends the sender exactly `Unknown command: ` followed by `t` and a line
feed, and returns the state it was given: the flag `connected` of the session, every
member list and every history are as before, and the token is not empty. -/
theorem handleCommand_unknown (hms : Nat → Str) (st : State) (user : UserPtr) (command : Str)
    (now : Nat) (hslash : command.head? = some 47)
    (hquit : (readToken command).1 ≠ lit "/quit")
    (husers : (readToken command).1 ≠ lit "/users")
    (hjoin : (readToken command).1 ≠ lit "/join")
    (hencrypt : (readToken command).1 ≠ lit "/encrypt") :
    handleCommand hms st user command now =
      (st, [⟨(st.mem user).socket,
        lit "Unknown command: " ++ (readToken command).1 ++ lit "\n"⟩]) ∧
    processMessage hms st user command now = handleCommand hms st user command now ∧
    ((processMessage hms st user command now).1.mem user).connected =
      (st.mem user).connected ∧
    (processMessage hms st user command now).1.chatRooms = st.chatRooms ∧
    (readToken command).1.head? = some 47 := by
  have h1 : handleCommand hms st user command now =
      (st, [⟨(st.mem user).socket,
        lit "Unknown command: " ++ (readToken command).1 ++ lit "\n"⟩]) := by
    unfold handleCommand
    rw [if_neg hquit, if_neg husers, if_neg hencrypt]
  have h2 : processMessage hms st user command now = handleCommand hms st user command now := by
    cases command with
    | nil => simp at hslash
    | cons b bs =>
      have hb : b = 47 := by simpa using hslash
      simp only [processMessage, if_pos hb]
  refine ⟨h1, h2, by rw [h2, h1], by rw [h2, h1], ?_⟩
  cases command with
  | nil => simp at hslash
  | cons b bs =>
    have hb : b = 47 := by simpa using hslash
    subst hb
    simp [readToken, List.dropWhile, List.takeWhile, isSpace]

/-- C7 at a concrete input: `A` processes `/foo bar`. -/
theorem handleCommand_unknown_witness :
    handleCommand utcClock demoState 1 (lit "/foo bar") 0 =
      (demoState, [⟨4, lit "Unknown command: /foo\n"⟩]) :=
  (handleCommand_unknown utcClock demoState 1 (lit "/foo bar") 0 (by decide) (by decide)
    (by decide) (by decide) (by decide)).1

/-- C8: in a reachable state, let `r` be the room of the session `user`, and let the line
start with a slash and have `/users` as its first token. Then the state is returned
unchanged and the session is sent one listing: the header `Users in room:` followed by one
line `- name` for each entry of the member list of `r`, in the order of that list. The
member list has no repetition, so each member is listed once. The order of the list is
the join order: a step of the server leaves the member list of this room as it is,
appends a session that was not a member at its end, or removes a session and keeps the
others in their order. -/
theorem processMessage_users (hms : Nat → Str) (st : State) (hreach : Reachable hms st)
    (user : UserPtr) (r : ChatRoom) (hr : r ∈ st.chatRooms) (hmem : user ∈ r.users)
    (command : Str) (hslash : command.head? = some 47)
    (hcmd : (readToken command).1 = lit "/users") (now : Nat) :
    processMessage hms st user command now =
      (st, [⟨(st.mem user).socket,
        lit "Users in room:\n" ++
          (r.users.map (fun u => lit "- " ++ (st.mem u).username ++ lit "\n")).flatten⟩]) ∧
    r.users.Nodup ∧
    (∀ st2, Step hms st st2 → ∃ r2 rs2, st2.chatRooms = r2 :: rs2 ∧
      (r2.users = r.users ∨ (∃ p, p ∉ r.users ∧ r2.users = r.users ++ [p]) ∨
        ∃ p, r2.users = r.users.filter (fun t => decide (t ≠ p)))) := by
  have hinv := hreach.inv
  obtain ⟨s, hrooms, hs⟩ := hinv.room_of_member hr hmem
  obtain ⟨gu, h1, h2, h3, -⟩ := hinv
  have hgu : gu = r.users := by
    rw [hrooms] at h1
    simp only [List.map_cons, List.map_nil, List.cons.injEq, and_true] at h1
    exact h1.1.symm
  subst hgu
  refine ⟨?_, h2, ?_⟩
  · have hq : lit "/users" ≠ lit "/quit" := by decide
    cases command with
    | nil => simp at hslash
    | cons b bs =>
      have hb : b = 47 := by simpa using hslash
      simp only [processMessage, if_pos hb, handleCommand, hcmd, if_neg hq, if_pos, hrooms,
        ChatRoom.getUsers, userLines_eq_join]
  · intro st2 hstep
    cases hstep with
    | start => exact ⟨r, [s], hrooms, Or.inl rfl⟩
    | stop => exact ⟨r, [s], hrooms, Or.inl rfl⟩
    | connect sock username p hnew hsock =>
      refine ⟨r.addUser p, [s], ?_, Or.inr (Or.inl ⟨p, fun hp => hnew ((h3 p).mp hp), rfl⟩)⟩
      simp only [handleClient_enter, hrooms, addUserRoom0]
    | line u c now2 hlive hrun hconn =>
      have hsame := (handleClient_line_same hms st u c now2).1
      rw [hrooms] at hsame
      match hc : (handleClient_line hms st u c now2).1.chatRooms, hsame with
      | [], hsame => simp [hc] at hsame
      | r2 :: rs2, hsame =>
        simp only [List.map_cons, List.map_nil, List.cons.injEq] at hsame
        exact ⟨r2, rs2, rfl, Or.inl hsame.1⟩
    | teardown u hlive =>
      refine ⟨r.removeUser u, [s.removeUser u], ?_, Or.inr (Or.inr ⟨u, ?_⟩)⟩
      · simp only [handleClient_cleanup, hrooms, List.map_cons, List.map_nil]
      · exact eraseRemove_eq_filter u r.users

/-- C8 at a concrete input: `A` processes `/users` while `A` and `B` are in General. -/
theorem processMessage_users_witness :
    processMessage utcClock demoState 1 (lit "/users") 0 =
      (demoState, [⟨4, lit "Users in room:\n- A\n- B\n"⟩]) :=
  (processMessage_users utcClock demoState (demoState_reachable utcClock) 1
    ⟨lit "General", [1, 2], []⟩ (by decide) (by decide) (lit "/users") (by decide) (by decide)
    0).1.trans (by
      have h : (demoState.mem 1).socket = 4 ∧
          lit "Users in room:\n" ++
            (([1, 2] : List UserPtr).map
              (fun u => lit "- " ++ (demoState.mem u).username ++ lit "\n")).flatten =
          lit "Users in room:\n- A\n- B\n" := by decide
      simp only [h.1, h.2])

/-! ## Room exclusivity (C9) -/

/-- C9: in every state reached from the constructed server (rooms General and Secure, both
empty) by connections, processed lines, teardowns, `start` and `stop`, every session is in
the member list of at most one room, and occurs at most once in a member list. -/
theorem room_exclusivity (hms : Nat → Str) (st : State) (hreach : Reachable hms st)
    (u : UserPtr) :
    (st.chatRooms.filter (fun r => decide (u ∈ r.users))).length ≤ 1 ∧
    (∀ r ∈ st.chatRooms, r.users.count u ≤ 1) := by
  obtain ⟨gu, h1, h2, -⟩ := hreach.inv
  match hc : st.chatRooms, h1 with
  | [g, s], h1 =>
    simp only [List.map_cons, List.map_nil, List.cons.injEq, and_true] at h1
    constructor
    · simp only [List.filter_cons, List.filter_nil, h1.2, List.not_mem_nil, decide_False]
      by_cases hg : u ∈ g.users
      · simp [hg]
      · simp [hg]
    · intro r hr
      simp only [List.mem_cons, List.mem_singleton, List.not_mem_nil, or_false] at hr
      rcases hr with rfl | rfl
      · rw [h1.1]
        exact List.nodup_iff_count_le_one.mp h2 u
      · rw [h1.2]
        simp
  | [], h1 => simp at h1
  | [_], h1 => simp at h1
  | _ :: _ :: _ :: _, h1 => simp at h1

/-- C9 at a concrete state: with `A` and `B` connected, session 1 is in exactly one room. -/
theorem room_exclusivity_witness :
    (demoState.chatRooms.filter (fun r => decide (1 ∈ r.users))).length ≤ 1 ∧
    (demoState.chatRooms.filter (fun r => decide (1 ∈ r.users))).length = 1 :=
  ⟨(room_exclusivity utcClock demoState (demoState_reachable utcClock) 1).1, by decide⟩

/-! ## SimpleCipher (C11) -/

theorem getD_byte_lt {k : Str} (hkb : ∀ b ∈ k, b < 256) (j : Nat) : k.getD j 0 < 256 := by
  by_cases h : j < k.length
  · rw [List.getD_eq_getElem k 0 h]
    exact hkb _ (List.getElem_mem h)
  · rw [List.getD_eq_default k 0 (Nat.le_of_not_lt h)]
    decide

theorem xor_byte_lt {a b : Nat} (ha : a < 256) (hb : b < 256) : a ^^^ b < 256 :=
  Nat.xor_lt_two_pow (n := 8) ha hb

theorem decrypt_encrypt_byte {c kb : Nat} (hc : c < 256) (hkb : kb < 256) :
    ((((((c ^^^ kb) + 13) % 256 : Nat) : Int) - 13 + 256) % 256).toNat ^^^ kb = c := by
  have hx : c ^^^ kb < 256 := xor_byte_lt hc hkb
  have h : ((((((c ^^^ kb) + 13) % 256 : Nat) : Int) - 13 + 256) % 256).toNat = c ^^^ kb := by
    omega
  rw [h, Nat.xor_cancel_right]

theorem encryptFrom_length (k : Str) (j : Nat) (p : Str) :
    (SimpleCipher.encryptFrom k j p).length = p.length := by
  induction p generalizing j with
  | nil => rfl
  | cons c cs ih => simp [SimpleCipher.encryptFrom, ih]

theorem encryptFrom_getD (k : Str) (j : Nat) (p : Str) (i : Nat) (hi : i < p.length) :
    (SimpleCipher.encryptFrom k j p).getD i 0 =
      ((p.getD i 0 ^^^ k.getD ((j + i) % k.length) 0) + 13) % 256 := by
  induction p generalizing j i with
  | nil => simp at hi
  | cons c cs ih =>
    cases i with
    | zero => simp [SimpleCipher.encryptFrom]
    | succ i =>
      have hi2 : i < cs.length := by simpa using hi
      simp only [SimpleCipher.encryptFrom, List.getD_cons_succ]
      rw [ih (j + 1) i hi2]
      have : j + 1 + i = j + (i + 1) := by omega
      rw [this]

theorem decryptFrom_encryptFrom (k : Str) (hkb : ∀ b ∈ k, b < 256) (j : Nat) (p : Str)
    (hpb : ∀ b ∈ p, b < 256) :
    SimpleCipher.decryptFrom k j (SimpleCipher.encryptFrom k j p) = p := by
  induction p generalizing j with
  | nil => rfl
  | cons c cs ih =>
    have hc : c < 256 := hpb c (List.mem_cons_self c cs)
    have hcs : ∀ b ∈ cs, b < 256 := fun b hb => hpb b (List.mem_cons_of_mem c hb)
    simp only [SimpleCipher.encryptFrom, SimpleCipher.decryptFrom]
    rw [decrypt_encrypt_byte hc (getD_byte_lt hkb _), ih (j + 1) hcs]

/-- C11: for every non-empty key `k` and every plaintext `p`, both strings of bytes,
`SimpleCipher(k).decrypt(SimpleCipher(k).encrypt(p))` is `p`, `encrypt(p)` has the length
of `p`, and byte `i` of `encrypt(p)` is `((p[i] XOR k[i mod |k|]) + 13) mod 256`. -/
theorem SimpleCipher_roundtrip (k p : Str) (hk : k ≠ []) (hkb : ∀ b ∈ k, b < 256)
    (hpb : ∀ b ∈ p, b < 256) :
    SimpleCipher.decrypt k (SimpleCipher.encrypt k p) = p ∧
    (SimpleCipher.encrypt k p).length = p.length ∧
    (∀ i, i < p.length → i % k.length < k.length ∧
      (SimpleCipher.encrypt k p).getD i 0 =
        ((p.getD i 0 ^^^ k.getD (i % k.length) 0) + 13) % 256) := by
  refine ⟨decryptFrom_encryptFrom k hkb 0 p hpb, encryptFrom_length k 0 p, ?_⟩
  intro i hi
  refine ⟨Nat.mod_lt i (List.length_pos.mpr hk), ?_⟩
  have h := encryptFrom_getD k 0 p i hi
  rw [Nat.zero_add] at h
  exact h

/-- C11 at a concrete input: the key of the server and the plaintext `hi`. -/
theorem SimpleCipher_roundtrip_witness :
    SimpleCipher.decrypt (lit "CipherChatKey123")
      (SimpleCipher.encrypt (lit "CipherChatKey123") (lit "hi")) = lit "hi" ∧
    SimpleCipher.encrypt (lit "CipherChatKey123") (lit "hi") = [56, 13] :=
  ⟨(SimpleCipher_roundtrip (lit "CipherChatKey123") (lit "hi") (by decide) (by decide)
    (by decide)).1, by decide⟩

/-! ## SimpleRSA (C12) -/

/-- The bound on the turns of `modPowLoop` is never what ends the loop: with at least
`exp` turns allowed, one more turn changes nothing. -/
theorem modPowLoop_enough_turns (mod : Int) (turns : Nat) (result base exp : Int)
    (h : exp ≤ turns) :
    SimpleRSA.modPowLoop mod (turns + 1) result base exp =
      SimpleRSA.modPowLoop mod turns result base exp := by
  induction turns generalizing result base exp with
  | zero =>
    have h0 : ¬ exp > 0 := by simpa using h
    simp [SimpleRSA.modPowLoop, h0]
  | succ t ih =>
    by_cases hpos : exp > 0
    · have hhalf : exp / 2 ≤ (t : Int) := by push_cast at h; omega
      rw [SimpleRSA.modPowLoop, if_pos hpos, ih _ _ _ hhalf]
      conv_rhs => rw [SimpleRSA.modPowLoop, if_pos hpos]
    · rw [SimpleRSA.modPowLoop, if_neg hpos]
      conv_rhs => rw [SimpleRSA.modPowLoop, if_neg hpos]

theorem modInverse_value : SimpleRSA.modInverse 17 ((61 - 1) * (53 - 1)) = 2753 := by
  decide!

theorem generateKeys_value (rsa : SimpleRSA) : rsa.generateKeys = ⟨3233, 17, 2753⟩ := by
  simp only [SimpleRSA.generateKeys, modInverse_value]
  rfl

/-- Every byte, read as a signed or as an unsigned `char`, comes back from `modPow` with
the private exponent applied to `modPow` with the public exponent. -/
theorem modPow_roundtrip_byte :
    ∀ b, b < 256 → ∀ charSigned : Bool,
      intToChar (SimpleRSA.modPow (SimpleRSA.modPow (charToInt charSigned b) 17 3233)
        2753 3233) = b := by
  decide!

theorem encrypt_length (charSigned : Bool) (m : Str) (pub_n pub_e : Int) :
    (SimpleRSA.encrypt charSigned m pub_n pub_e).length = m.length := by
  induction m with
  | nil => rfl
  | cons c cs ih => simp [SimpleRSA.encrypt, ih]

theorem decrypt_encrypt_keys (charSigned : Bool) (m : Str) (hm : ∀ b ∈ m, b < 256) :
    SimpleRSA.decrypt ⟨3233, 17, 2753⟩ (SimpleRSA.encrypt charSigned m 3233 17) = m := by
  induction m with
  | nil => rfl
  | cons c cs ih =>
    have hc : c < 256 := hm c (List.mem_cons_self c cs)
    have hcs : ∀ b ∈ cs, b < 256 := fun b hb => hm b (List.mem_cons_of_mem c hb)
    simp only [SimpleRSA.encrypt, SimpleRSA.decrypt]
    rw [modPow_roundtrip_byte c hc charSigned, ih hcs]

/-- C12: after `generateKeys()` the members are `n = 3233`, `e = 17` and
`d = modInverse(17, 3120) = 2753`, with `e * d = 1` modulo 3120, and `getPublicKey()`
returns `(3233, 17)`. For every message `m`, a string of bytes, whether plain `char` is
signed or not, `decrypt(encrypt(m, n, e))` with the pair of `getPublicKey()` is `m`, and
`encrypt` yields one number for each character of `m`. -/
theorem SimpleRSA_roundtrip (charSigned : Bool) (rsa : SimpleRSA) (m : Str)
    (hm : ∀ b ∈ m, b < 256) :
    rsa.generateKeys.n = 3233 ∧ rsa.generateKeys.e = 17 ∧
    rsa.generateKeys.d = SimpleRSA.modInverse 17 3120 ∧ rsa.generateKeys.d = 2753 ∧
    (rsa.generateKeys.e * rsa.generateKeys.d) % 3120 = 1 ∧
    rsa.generateKeys.getPublicKey = (3233, 17) ∧
    rsa.generateKeys.decrypt
      (SimpleRSA.encrypt charSigned m rsa.generateKeys.getPublicKey.1
        rsa.generateKeys.getPublicKey.2) = m ∧
    (SimpleRSA.encrypt charSigned m rsa.generateKeys.getPublicKey.1
      rsa.generateKeys.getPublicKey.2).length = m.length := by
  have hd : SimpleRSA.modInverse 17 3120 = 2753 := modInverse_value
  rw [hd, generateKeys_value rsa]
  exact ⟨rfl, rfl, rfl, rfl, by decide, rfl, decrypt_encrypt_keys charSigned m hm,
    encrypt_length charSigned m 3233 17⟩

/-- C12 at a concrete input: the message `hi` with a signed `char`. -/
theorem SimpleRSA_roundtrip_witness :
    (SimpleRSA.generateKeys ⟨0, 0, 0⟩).decrypt
      (SimpleRSA.encrypt true (lit "hi") (SimpleRSA.generateKeys ⟨0, 0, 0⟩).getPublicKey.1
        (SimpleRSA.generateKeys ⟨0, 0, 0⟩).getPublicKey.2) = lit "hi" :=
  (SimpleRSA_roundtrip true ⟨0, 0, 0⟩ (lit "hi") (by decide)).2.2.2.2.2.2.1

end CipherChat
